import Mathlib

/-!
Verification of the `dorjee/utils` repository: a shallow embedding of the
string-processing functions from `utils/bio.py` and `utils/common.py`,
together with theorems settling the specification claims about them.

Strings are modelled as `List Char` (Python `str`).  File contents are
passed explicitly: a function that reads a file becomes a function of the
file text, and a function that writes returns the written text.  External
effects (the `gzip` subprocess, `hashlib.sha224`, `random.choice`) are
modelled as explicit parameters.  Python exceptions become `Except` /
`Option` results.
-/

/-- Kinds of Python exception the embedded functions can signal. -/
inductive PyErr : Type
  | valueError
  | typeError
  | osError
  | ioError
  | fileNotFoundError
  deriving DecidableEq, Repr

/-! ## Python string primitives (ASCII-faithful models) -/

/-- Python `str.split(sep)` generalised over a character predicate:
splits at every character satisfying `p`, keeping empty pieces
(Python keeps them for an explicit one-character separator). -/
def splitPred (p : Char → Bool) : List Char → List (List Char)
  | [] => [[]]
  | c :: rest =>
    if p c then [] :: splitPred p rest
    else
      match splitPred p rest with
      | [] => [[c]]
      | g :: gs => (c :: g) :: gs

/-- Python `s.split(sep)` for a one-character separator `sep`. -/
def pySplit (sep : Char) (s : List Char) : List (List Char) :=
  splitPred (fun c => c = sep) s

/-- Python `s.find(c)` for a one-character needle: index of the first
occurrence, `-1` when absent. -/
def pyFind (c : Char) : List Char → Int
  | [] => -1
  | x :: rest =>
    if x = c then 0
    else
      let r := pyFind c rest
      if r = -1 then -1 else r + 1

/-- Python slice `s[k:]` with a possibly negative `k`. -/
def pySliceFrom (s : List Char) (k : Int) : List Char :=
  if k < 0 then s.drop ((s.length + k).toNat) else s.drop k.toNat

/-- The whitespace characters of Python `str.split()` (ASCII part). -/
def pyIsSpace (c : Char) : Bool :=
  c = ' ' || c = '\t' || c = '\n' || c = '\r' || c = '\x0b' || c = '\x0c'

/-- Python `s.split()` with no argument: split on whitespace runs,
discarding empty pieces. -/
def pyWsSplit (s : List Char) : List (List Char) :=
  (splitPred pyIsSpace s).filter (· ≠ [])

/-- Python `s.upper()` per character, restricted to ASCII (the repository
only feeds it ASCII sequence data): ASCII lowercase letters are shifted
down by 32, everything else is unchanged. -/
def pyUpper (c : Char) : Char :=
  if 97 ≤ c.toNat ∧ c.toNat ≤ 122 then Char.ofNat (c.toNat - 32) else c

/-- Python `s.endswith(suffix)`: literal suffix match. -/
def pyEndswith (s suffix : List Char) : Bool :=
  suffix.isSuffixOf s

/-- Python `os.path.join(a, b)` (posix flavour). -/
def pyJoin (a b : List Char) : List Char :=
  if b.head? = some '/' then b
  else if a = [] ∨ a.getLast? = some '/' then a ++ b
  else a ++ '/' :: b

/-! ## `utils/bio.py` -/

/-- Source: `reverse(sequence)` returns `sequence[::-1]`. -/
def reverse (sequence : List Char) : List Char :=
  sequence.reverse

/-- Source: the dictionary literal in `complement`; a lookup of a missing
key is Python `KeyError`, modelled as `none`. -/
def complement_dict (c : Char) : Option Char :=
  if c = 'A' then some 'T'
  else if c = 'C' then some 'G'
  else if c = 'T' then some 'A'
  else if c = 'G' then some 'C'
  else none

/-- Source: `complement(sequence)`: the list comprehension
`[complement_dict[base] for base in sequence]`, joined back; fails at the
first character missing from the table. -/
def complement : List Char → Option (List Char)
  | [] => some []
  | c :: rest =>
    match complement_dict c, complement rest with
    | some d, some ds => some (d :: ds)
    | _, _ => none

/-- Source: `reverse_complement(sequence)`: reverse, then complement. -/
def reverse_complement (sequence : List Char) : Option (List Char) :=
  complement (reverse sequence)

/-- Source: `gc_content(sequence)`: uppercase, count G and C, divide by
the length (Python `ZeroDivisionError` on an empty sequence becomes
`none`), times 100. -/
def gc_content (sequence : List Char) : Option ℚ :=
  let up := sequence.map pyUpper
  let gc_count := up.count 'G' + up.count 'C'
  if sequence.length = 0 then none
  else some (100 * ((gc_count : ℚ) / (sequence.length : ℚ)))

/-- A FASTA record: the dictionaries `{"id": ..., "sequence": ...}` built
by `fasta_to_dictionary`. -/
structure FRec : Type where
  id : List Char
  sequence : List Char
  deriving DecidableEq, Repr

/-- Source: the body of the `for i in input_sequences[1:]` loop of
`fasta_to_dictionary`.  The loop state is the pair
`(description, end_of_description)`, which is only (re)assigned when the
current chunk is non-empty; reading it while still unbound is a Python
`NameError`, modelled as `none`. -/
def fastaLoop : List (List Char) → Option (List Char × Int) → Option (List FRec)
  | [], _ => some []
  | i :: rest, st =>
    let st2 := if i.length > 0 then some ((pySplit '\n' i).headD [], pyFind '\n' i) else st
    match st2 with
    | none => none
    | some de =>
      match fastaLoop rest (some de) with
      | none => none
      | some recs =>
        some (⟨de.1, (pyWsSplit (pySliceFrom i de.2)).flatten⟩ :: recs)

/-- Source: `fasta_to_dictionary(f)` as a function of the text read from
the file (the claim restricts to readable files, so the read succeeds).
The bare `except` turns any in-loop failure (the `NameError` above) into
an `IOError`. -/
def fasta_to_dictionary (sequence_text : List Char) : Except PyErr (List FRec) :=
  if '>' ∈ sequence_text then
    match fastaLoop ((pySplit '>' sequence_text).drop 1) none with
    | none => .error .ioError
    | some recs => .ok recs
  else
    .ok [⟨"unknown_id".data, (pySplit '\n' sequence_text).flatten⟩]

/-- A Python object appearing as an element of the `data` argument of
`write_to_file`: either mapping-like (an association list of fields) or
not. -/
inductive PyRecord : Type
  | map (fields : List (List Char × List Char))
  | nonMap
  deriving DecidableEq, Repr

/-- Python `record[key]` on a mapping: `none` models `KeyError`. -/
def lookupField : List (List Char × List Char) → List Char → Option (List Char)
  | [], _ => none
  | (k, v) :: rest, key => if k = key then some v else lookupField rest key

/-- The `data` argument of `write_to_file`: a Python `Sequence` of
records, or some other object with the given truthiness (a dict, a set,
...), which `isinstance(data, abc.Sequence)` rejects. -/
inductive PyData : Type
  | seq (records : List PyRecord)
  | other (truthy : Bool)
  deriving DecidableEq, Repr

/-- Python truthiness of the `data` argument (`not data`). -/
def pyTruthy : PyData → Bool
  | .seq records => records ≠ []
  | .other t => t

/-- Source: the record loop inside `write_to_file`: each mapping record
writes `>{id}\n{sequence}\n`; a non-mapping record, a missing key, or a
format other than `"fasta"` raises (modelled as `.error ()`), to be
re-wrapped by the enclosing bare `except`. -/
def writeLoop : List PyRecord → List Char → Except Unit (List Char)
  | [], _ => .ok []
  | .nonMap :: _, _ => .error ()
  | .map fs :: rest, format =>
    match lookupField fs "id".data, lookupField fs "sequence".data with
    | some header, some sequence =>
      if format = "fasta".data then
        match writeLoop rest format with
        | .error e => .error e
        | .ok r => .ok ('>' :: header ++ '\n' :: sequence ++ '\n' :: r)
      else .error ()
    | _, _ => .error ()

/-- Source: `write_to_file(data, filename, format)`.  The result carries
the full text written to `filename` on success; `none` means the file was
never opened (the silent non-`Sequence` path).  The bare `except` around
the write re-raises everything as `TypeError`. -/
def write_to_file (data : PyData) (filename : List Char) (format : List Char) :
    Except PyErr (Option (List Char)) :=
  if pyTruthy data = false then .error .valueError
  else if filename = [] then .error .valueError
  else
    match data with
    | .other _ => .ok none
    | .seq records =>
      match writeLoop records format with
      | .error _ => .error .typeError
      | .ok contents => .ok (some contents)

/-- Source: `string.ascii_letters + string.digits`, the population of
`random.choice` in `generate_sequence_info`. -/
def ascii_letters_digits : List Char :=
  "abcdefghijklmnopqrstuvwxyzABCDEFGHIJKLMNOPQRSTUVWXYZ0123456789".data

/-- Source: `generate_hash(input_)`: the SHA-224 hex digest of the input.
`hashlib.sha224` is an external library primitive, passed in as the
function `sha224hex`. -/
def generate_hash (sha224hex : List Char → List Char) (input_ : List Char) : List Char :=
  sha224hex input_

/-- The dictionary returned by `generate_sequence_info`. -/
structure SequenceInfo : Type where
  hash_id : List Char
  sequence_id : List Char
  description : Option (List Char)
  sequence : List Char
  deriving DecidableEq, Repr

/-- Source: `generate_sequence_info(sequence, description)`.  The random
source behind `random.choice` is modelled as `rng`, giving for each of
the 32 draws an index into `ascii_letters_digits`.  The function
overwrites `description` with `None`, strips all whitespace from
`sequence` via the join of `sequence.split()`, and hashes the random
`sequence_id`, not the sequence. -/
def generate_sequence_info (sha224hex : List Char → List Char)
    (rng : Nat → Fin ascii_letters_digits.length)
    (sequence : List Char) (description : Option (List Char)) : SequenceInfo :=
  let sequence_id := (List.range 32).map (fun n => ascii_letters_digits.get (rng n))
  let description := none
  let sequence := (pyWsSplit sequence).flatten
  let hash_id := generate_hash sha224hex sequence_id
  { hash_id := hash_id
    sequence_id := sequence_id
    description := description
    sequence := sequence }

/-! ## `utils/common.py` -/

/-- Source: the f-string `f"Failed to gzip: {e.output.decode()}."`. -/
def failedGzipMsg (output : List Char) : List Char :=
  "Failed to gzip: ".data ++ output ++ ".".data

/-- Source: the f-string printed by the `finally` block. -/
def gzippedMsg (file_ : List Char) : List Char :=
  file_ ++ " has been gzipped.".data

/-- Source: `compress_file(file_)`.  The external `gzip` subprocess is
modelled by its exit code and captured output: `check_output` raises
`CalledProcessError` exactly when the exit code is non-zero.  The result
is the list of printed lines paired with the exception propagated to the
caller, if any.  The `else` branch of the `try` runs only when no
exception was raised, i.e. on subprocess success, and raises `OSError`;
the `finally` print happens on both paths. -/
def compress_file (file_ : List Char) (gzipExitCode : Nat) (gzipOutput : List Char) :
    List (List Char) × Option PyErr :=
  if gzipExitCode = 0 then
    ([gzippedMsg file_], some .osError)
  else
    ([failedGzipMsg gzipOutput, gzippedMsg file_], none)

/-- What the filesystem holds at the `input_` path given to
`filename_by_extension`: a directory with the given `os.listdir` listing,
a regular file, or nothing usable. -/
inductive FSEntry : Type
  | dir (listing : List (List Char))
  | file
  | missing
  deriving DecidableEq, Repr

/-- Source: `filename_by_extension(input_, extension)`, as a function of
what the filesystem holds at `input_`. -/
def filename_by_extension (input_ : List Char) (fs : FSEntry) (extension : List Char) :
    Except PyErr (List (List Char)) :=
  match fs with
  | .dir listing =>
    let files := (listing.filter (fun f => pyEndswith f extension)).map (fun f => pyJoin input_ f)
    if files = [] then .error .fileNotFoundError else .ok files
  | .file =>
    let files := if pyEndswith input_ extension then [input_] else []
    if files = [] then .error .fileNotFoundError else .ok files
  | .missing => .error .valueError

/-! ## Spec-side definitions (written from the claims' wording, for
comparison with the source embeddings) -/

/-- The DNA alphabet named by the claims about `complement`. -/
def dnaChars : List Char := ['A', 'T', 'C', 'G']

/-- The total Watson-Crick table named by the claim about `complement`
("the fixed table A↔T, C↔G"), extended by the identity off the table so
it can be stated as a total map. -/
def wcTable (c : Char) : Char :=
  if c = 'A' then 'T'
  else if c = 'T' then 'A'
  else if c = 'C' then 'G'
  else if c = 'G' then 'C'
  else c

/-- The characters counted by the claim about `gc_content`. -/
def isGC (c : Char) : Bool :=
  c = 'G' || c = 'C' || c = 'g' || c = 'c'

deriving instance DecidableEq for Except

/-- The record the C1 claim assigns to one non-empty `>`-chunk: the id is
the chunk's first line, the sequence is the remainder after that line,
whitespace-split and rejoined. -/
def claimChunkRec (i : List Char) : FRec :=
  ⟨i.takeWhile (fun c => !(c = '\n')),
   (pyWsSplit (i.drop (i.takeWhile (fun c => !(c = '\n'))).length)).flatten⟩

/-- The parse result described by the C1 claim wording: one record per
non-empty chunk after splitting on `>` and discarding the prefix; or a
single `unknown_id` record when the text has no `>`. -/
def claimFasta (text : List Char) : List FRec :=
  if '>' ∈ text then
    ((pySplit '>' text).drop 1).filterMap
      (fun i => if i = [] then none else some (claimChunkRec i))
  else [⟨"unknown_id".data, text.filter (fun c => !(c = '\n'))⟩]

/-- A record acceptable to `write_to_file`: mapping-like and carrying
both required keys. -/
def goodRecord : PyRecord → Bool
  | .map fs => (lookupField fs "id".data).isSome && (lookupField fs "sequence".data).isSome
  | .nonMap => false

/-- The `>`-less part of the FASTA block `write_to_file` emits for one
record. -/
def chunkOf (r : FRec) : List Char :=
  r.id ++ ('\n' :: (r.sequence ++ ['\n']))

/-- The full text `write_to_file` emits for a record list in `fasta`
format. -/
def serializeFasta (rs : List FRec) : List Char :=
  (rs.map (fun r => '>' :: chunkOf r)).flatten

/-- The Python dictionary `{"id": ..., "sequence": ...}` for a record. -/
def recToPy (r : FRec) : PyRecord :=
  .map [("id".data, r.id), ("sequence".data, r.sequence)]

/-- The C2 claim's well-formedness of a record, plus the amendment: the
id is a single line without `>`, the sequence is non-empty, whitespace-
free and (the amendment) free of `>`. -/
def goodFRec (r : FRec) : Prop :=
  '\n' ∉ r.id ∧ '>' ∉ r.id ∧ r.sequence ≠ [] ∧
  (∀ c ∈ r.sequence, pyIsSpace c = false) ∧ '>' ∉ r.sequence

instance (r : FRec) : Decidable (goodFRec r) := by
  unfold goodFRec
  infer_instance

/-! ## Lemmas about `complement` -/

theorem complement_dict_eq_none_iff (c : Char) :
    complement_dict c = none ↔ c ∉ dnaChars := by
  by_cases h1 : c = 'A'
  · subst h1; decide
  by_cases h2 : c = 'C'
  · subst h2; decide
  by_cases h3 : c = 'T'
  · subst h3; decide
  by_cases h4 : c = 'G'
  · subst h4; decide
  simp [complement_dict, dnaChars, h1, h2, h3, h4]

theorem complement_dict_eq_some_wc (c : Char) (h : c ∈ dnaChars) :
    complement_dict c = some (wcTable c) := by
  simp only [dnaChars, List.mem_cons, List.not_mem_nil, or_false] at h
  rcases h with h | h | h | h <;> subst h <;> decide

theorem complement_eq_some_of_valid (s : List Char) (h : ∀ c ∈ s, c ∈ dnaChars) :
    complement s = some (s.map wcTable) := by
  induction s with
  | nil => rfl
  | cons c rest ih =>
    have hc : c ∈ dnaChars := h c (List.mem_cons_self c rest)
    have hrest : ∀ x ∈ rest, x ∈ dnaChars := fun x hx => h x (List.mem_cons_of_mem c hx)
    simp [complement, complement_dict_eq_some_wc c hc, ih hrest]

theorem complement_eq_none_of_invalid (s : List Char) (h : ∃ c ∈ s, c ∉ dnaChars) :
    complement s = none := by
  induction s with
  | nil => simp at h
  | cons c rest ih =>
    by_cases hc : c ∈ dnaChars
    · have hrest : ∃ x ∈ rest, x ∉ dnaChars := by
        rcases h with ⟨x, hx, hxd⟩
        rcases List.mem_cons.mp hx with rfl | hx2
        · exact absurd hc hxd
        · exact ⟨x, hx2, hxd⟩
      simp only [complement, ih hrest]
      cases complement_dict c <;> rfl
    · have : complement_dict c = none := (complement_dict_eq_none_iff c).mpr hc
      simp only [complement, this]

/-- C4: `complement` fails with a lookup error exactly when some character
lies outside `{A,T,C,G}` (case-sensitively), and otherwise maps every
character through the fixed table A↔T, C↔G. -/
theorem complement_lookup_error_iff (s : List Char) :
    (complement s = none ↔ ∃ c ∈ s, c ∉ dnaChars) ∧
    ((∀ c ∈ s, c ∈ dnaChars) → complement s = some (s.map wcTable)) := by
  refine ⟨⟨fun hn => ?_, complement_eq_none_of_invalid s⟩, complement_eq_some_of_valid s⟩
  by_contra hno
  push_neg at hno
  have hv : ∀ c ∈ s, c ∈ dnaChars := hno
  rw [complement_eq_some_of_valid s hv] at hn
  exact Option.noConfusion hn

/-- Witness for C4 at concrete inputs: `complement "ACGT"` succeeds with
the mapped string, and lowercase input makes the none-iff bite. -/
theorem complement_lookup_error_iff_witness :
    complement "ACGT".data = some "TGCA".data ∧ complement "acgt".data = none := by
  have h := complement_lookup_error_iff "ACGT".data
  constructor
  · have := h.2 (by decide)
    rw [this]; decide
  · exact (complement_lookup_error_iff "acgt".data).1.mpr ⟨'a', by decide, by decide⟩

/-! ## Lemmas about `reverse_complement` -/

theorem wcTable_mem_dna (c : Char) (h : c ∈ dnaChars) : wcTable c ∈ dnaChars := by
  simp only [dnaChars, List.mem_cons, List.not_mem_nil, or_false] at h ⊢
  rcases h with h | h | h | h <;> subst h <;> decide

theorem wcTable_wcTable (c : Char) (h : c ∈ dnaChars) : wcTable (wcTable c) = c := by
  simp only [dnaChars, List.mem_cons, List.not_mem_nil, or_false] at h
  rcases h with h | h | h | h <;> subst h <;> decide

/-- C5: on strings over `{A,T,G,C}`, `reverse_complement` is an
involution. -/
theorem reverse_complement_involution (s : List Char) (h : ∀ c ∈ s, c ∈ dnaChars) :
    (reverse_complement s).bind reverse_complement = some s := by
  have hrev : ∀ c ∈ s.reverse, c ∈ dnaChars := fun c hc => h c (List.mem_reverse.mp hc)
  have h1 : complement s.reverse = some (s.reverse.map wcTable) :=
    complement_eq_some_of_valid _ hrev
  have hmap : ∀ c ∈ (s.reverse.map wcTable).reverse, c ∈ dnaChars := by
    intro c hc
    rcases List.mem_map.mp (List.mem_reverse.mp hc) with ⟨x, hx, rfl⟩
    exact wcTable_mem_dna x (hrev x hx)
  have h2 : complement (s.reverse.map wcTable).reverse =
      some ((s.reverse.map wcTable).reverse.map wcTable) :=
    complement_eq_some_of_valid _ hmap
  simp only [reverse_complement, reverse, h1, Option.some_bind]
  rw [h2, ← List.map_reverse, List.reverse_reverse, List.map_map]
  have hid : s.map (wcTable ∘ wcTable) = s.map id :=
    List.map_congr_left (fun a ha => by
      simp only [Function.comp_apply, id_eq]
      exact wcTable_wcTable a (h a ha))
  rw [hid, List.map_id]

/-- Witness for C5 at the concrete valid string `ACGT`. -/
theorem reverse_complement_involution_witness :
    (reverse_complement "ACGT".data).bind reverse_complement = some "ACGT".data :=
  reverse_complement_involution "ACGT".data (by decide)

/-! ## Lemmas about `gc_content` -/

theorem toNat_ofNat_valid (n : Nat) (h : n.isValidChar) : (Char.ofNat n).toNat = n := by
  rw [Char.ofNat, dif_pos h]
  rfl

theorem pyUpper_eq_G (c : Char) (h : pyUpper c = 'G') : c = 'G' ∨ c = 'g' := by
  unfold pyUpper at h
  by_cases hr : 97 ≤ c.toNat ∧ c.toNat ≤ 122
  · rw [if_pos hr] at h
    have hv : (c.toNat - 32).isValidChar := Or.inl (by omega)
    have h2 := congrArg Char.toNat h
    rw [toNat_ofNat_valid _ hv] at h2
    have h71 : ('G' : Char).toNat = 71 := rfl
    rw [h71] at h2
    have h103 : c.toNat = 103 := by omega
    right
    rw [← Char.ofNat_toNat c, h103]
  · rw [if_neg hr] at h
    exact Or.inl h

theorem pyUpper_eq_C (c : Char) (h : pyUpper c = 'C') : c = 'C' ∨ c = 'c' := by
  unfold pyUpper at h
  by_cases hr : 97 ≤ c.toNat ∧ c.toNat ≤ 122
  · rw [if_pos hr] at h
    have hv : (c.toNat - 32).isValidChar := Or.inl (by omega)
    have h2 := congrArg Char.toNat h
    rw [toNat_ofNat_valid _ hv] at h2
    have h67 : ('C' : Char).toNat = 67 := rfl
    rw [h67] at h2
    have h99 : c.toNat = 99 := by omega
    right
    rw [← Char.ofNat_toNat c, h99]
  · rw [if_neg hr] at h
    exact Or.inl h

theorem isGC_iff (c : Char) : isGC c = true ↔ (pyUpper c = 'G' ∨ pyUpper c = 'C') := by
  constructor
  · intro h
    simp only [isGC, Bool.or_eq_true, decide_eq_true_eq] at h
    rcases h with ((rfl | rfl) | rfl) | rfl <;> first | (left; decide) | (right; decide)
  · intro h
    rcases h with h | h
    · rcases pyUpper_eq_G c h with rfl | rfl <;> decide
    · rcases pyUpper_eq_C c h with rfl | rfl <;> decide

theorem gc_count_eq (s : List Char) :
    (s.map pyUpper).count 'G' + (s.map pyUpper).count 'C' = s.countP isGC := by
  induction s with
  | nil => rfl
  | cons c rest ih =>
    by_cases hg : pyUpper c = 'G'
    · have hgc : isGC c = true := (isGC_iff c).mpr (Or.inl hg)
      have hnc : ¬ pyUpper c = 'C' := by rw [hg]; decide
      simp [List.count_cons, List.countP_cons, hg, hgc, hnc]
      omega
    · by_cases hc : pyUpper c = 'C'
      · have hgc : isGC c = true := (isGC_iff c).mpr (Or.inr hc)
        simp [List.count_cons, List.countP_cons, hg, hc, hgc]
        omega
      · have hgc : ¬ isGC c = true := fun hx =>
          (isGC_iff c).mp hx |>.elim hg hc
        simp [List.count_cons, List.countP_cons, hg, hc, hgc]
        omega

/-- C6: on a non-empty sequence, `gc_content` is 100 times the number of
`G`/`C`/`g`/`c` characters over the length (hence between 0 and 100);
on the empty sequence it fails with a division error. -/
theorem gc_content_spec (s : List Char) :
    (s = [] → gc_content s = none) ∧
    (s ≠ [] → ∃ q : ℚ,
      gc_content s = some q ∧
      q = 100 * (s.countP isGC : ℚ) / s.length ∧
      0 ≤ q ∧ q ≤ 100) := by
  constructor
  · intro h; subst h; rfl
  · intro h
    have hlen : s.length ≠ 0 := by simpa using h
    have hlpos : (0 : ℚ) < s.length := by
      have : 0 < s.length := Nat.pos_of_ne_zero hlen
      exact_mod_cast this
    refine ⟨100 * (s.countP isGC : ℚ) / s.length, ?_, rfl, ?_, ?_⟩
    · simp only [gc_content, if_neg hlen]
      rw [gc_count_eq, mul_div_assoc]
    · positivity
    · rw [div_le_iff₀ hlpos]
      have h1 : (s.countP isGC : ℚ) ≤ (s.length : ℚ) := by
        exact_mod_cast List.countP_le_length isGC
      nlinarith

/-- Witness for C6 at concrete inputs: `gc_content "GGCC"` is 100 and the
lowercase input gives the same value. -/
theorem gc_content_spec_witness :
    "GGCC".data ≠ [] ∧ gc_content "GGCC".data = some 100 ∧
      gc_content "ggcc".data = gc_content "GGCC".data := by
  have h1 := (gc_content_spec "GGCC".data).2 (by decide)
  have h2 := (gc_content_spec "ggcc".data).2 (by decide)
  rcases h1 with ⟨q1, hq1, he1, _, _⟩
  rcases h2 with ⟨q2, hq2, he2, _, _⟩
  have hc1 : (List.countP isGC "GGCC".data) = 4 := by decide
  have hc2 : (List.countP isGC "ggcc".data) = 4 := by decide
  have hl : ("GGCC".data.length = 4) ∧ ("ggcc".data.length = 4) := by decide
  refine ⟨by decide, ?_, ?_⟩
  · rw [hq1, he1, hc1, hl.1]; norm_num
  · rw [hq1, hq2, he1, he2, hc1, hc2, hl.1, hl.2]

/-! ## `compress_file`: the inverted success/failure control flow -/

/-- C3: `compress_file` raises nothing when the gzip subprocess fails
(it only logs the failure message), and raises `OSError` exactly when the
subprocess succeeds. -/
theorem compress_file_inverted (file_ : List Char) (ec : Nat) (out : List Char) :
    ((compress_file file_ ec out).2 = none ↔ ec ≠ 0) ∧
    (ec = 0 → compress_file file_ ec out = ([gzippedMsg file_], some PyErr.osError)) ∧
    (ec ≠ 0 → compress_file file_ ec out =
      ([failedGzipMsg out, gzippedMsg file_], none)) := by
  by_cases h : ec = 0 <;> simp [compress_file, h]

/-- Witness for C3 at exit codes 0 and 1. -/
theorem compress_file_inverted_witness :
    compress_file "f".data 0 "".data = ([gzippedMsg "f".data], some PyErr.osError) ∧
    compress_file "f".data 1 "boom".data =
      ([failedGzipMsg "boom".data, gzippedMsg "f".data], none) :=
  ⟨(compress_file_inverted "f".data 0 "".data).2.1 rfl,
   (compress_file_inverted "f".data 1 "boom".data).2.2 (by decide)⟩

/-! ## Lemmas about `splitPred` and friends -/

theorem splitPred_ne_nil (p : Char → Bool) (s : List Char) : splitPred p s ≠ [] := by
  induction s with
  | nil => simp [splitPred]
  | cons c rest ih =>
    by_cases hp : p c = true
    · simp [splitPred, hp]
    · simp only [splitPred, hp, if_false]
      rcases hs : splitPred p rest with _ | ⟨g, gs⟩ <;> simp

theorem splitPred_cons_of_sep (p : Char → Bool) (c : Char) (h : p c = true)
    (l : List Char) : splitPred p (c :: l) = [] :: splitPred p l := by
  simp [splitPred, h]

theorem splitPred_cons_of_not (p : Char → Bool) (c : Char) (h : p c = false)
    (l : List Char) :
    splitPred p (c :: l) = (splitPred p l).modifyHead (c :: ·) := by
  simp only [splitPred, h, Bool.false_eq_true, if_false]
  rcases hs : splitPred p l with _ | ⟨g, gs⟩
  · exact absurd hs (splitPred_ne_nil p l)
  · simp [List.modifyHead]

theorem splitPred_append_of_none (p : Char → Bool) (l₁ l₂ : List Char)
    (h : ∀ x ∈ l₁, p x = false) :
    splitPred p (l₁ ++ l₂) = (splitPred p l₂).modifyHead (l₁ ++ ·) := by
  induction l₁ with
  | nil =>
    rcases hs : splitPred p l₂ with _ | ⟨g, gs⟩
    · exact absurd hs (splitPred_ne_nil p l₂)
    · simp [hs, List.modifyHead]
  | cons c rest ih =>
    have hc : p c = false := h c (List.mem_cons_self c rest)
    have hrest : ∀ x ∈ rest, p x = false := fun x hx => h x (List.mem_cons_of_mem c hx)
    rw [List.cons_append, splitPred_cons_of_not p c hc, ih hrest]
    rcases hs : splitPred p l₂ with _ | ⟨g, gs⟩
    · exact absurd hs (splitPred_ne_nil p l₂)
    · simp [List.modifyHead]

theorem headD_splitPred (p : Char → Bool) (s : List Char) :
    (splitPred p s).headD [] = s.takeWhile (fun c => !p c) := by
  induction s with
  | nil => rfl
  | cons c rest ih =>
    by_cases hp : p c = true
    · rw [splitPred_cons_of_sep p c hp]
      simp [List.takeWhile_cons, hp]
    · have hp2 : p c = false := Bool.eq_false_iff.mpr hp
      rw [splitPred_cons_of_not p c hp2]
      rcases hs : splitPred p rest with _ | ⟨g, gs⟩
      · exact absurd hs (splitPred_ne_nil p rest)
      · rw [hs] at ih
        simp only [List.headD_cons] at ih
        simp [List.modifyHead, List.takeWhile_cons, hp2, ih]

theorem flatten_splitPred (p : Char → Bool) (s : List Char) :
    (splitPred p s).flatten = s.filter (fun c => !p c) := by
  induction s with
  | nil => rfl
  | cons c rest ih =>
    by_cases hp : p c = true
    · rw [splitPred_cons_of_sep p c hp]
      simp [List.filter_cons, hp, ih]
    · have hp2 : p c = false := Bool.eq_false_iff.mpr hp
      rw [splitPred_cons_of_not p c hp2]
      rcases hs : splitPred p rest with _ | ⟨g, gs⟩
      · exact absurd hs (splitPred_ne_nil p rest)
      · rw [hs] at ih
        simp only [List.modifyHead, List.flatten_cons, List.filter_cons, hp2,
          Bool.not_false, if_true] at ih ⊢
        simp [← ih]

theorem flatten_filter_ne_nil (l : List (List Char)) :
    (l.filter (· ≠ [])).flatten = l.flatten := by
  induction l with
  | nil => rfl
  | cons a t ih =>
    by_cases ha : a = []
    · subst ha; simpa using ih
    · have ih2 := ih
      simp only [ne_eq, decide_not] at ih2
      simp [List.filter_cons, ha, ih2]

theorem flatten_pyWsSplit (s : List Char) :
    (pyWsSplit s).flatten = s.filter (fun c => !pyIsSpace c) := by
  rw [pyWsSplit, flatten_filter_ne_nil, flatten_splitPred]

/-! ## `generate_sequence_info` -/

/-- C9: the result of `generate_sequence_info` has a 32-character
alphanumeric `sequence_id`, a `hash_id` that is the SHA-224 digest of
that `sequence_id` (not of the biological sequence), the whitespace-
stripped input as `sequence`, and a `description` that is always `None`
whatever the caller supplied. -/
theorem generate_sequence_info_spec (sha224hex : List Char → List Char)
    (rng : Nat → Fin ascii_letters_digits.length)
    (sequence : List Char) (description : Option (List Char)) :
    (generate_sequence_info sha224hex rng sequence description).sequence_id.length = 32 ∧
    (∀ c ∈ (generate_sequence_info sha224hex rng sequence description).sequence_id,
      ('A' ≤ c ∧ c ≤ 'Z') ∨ ('a' ≤ c ∧ c ≤ 'z') ∨ ('0' ≤ c ∧ c ≤ '9')) ∧
    (generate_sequence_info sha224hex rng sequence description).hash_id =
      sha224hex (generate_sequence_info sha224hex rng sequence description).sequence_id ∧
    (generate_sequence_info sha224hex rng sequence description).sequence =
      sequence.filter (fun c => !pyIsSpace c) ∧
    (generate_sequence_info sha224hex rng sequence description).description = none := by
  refine ⟨?_, ?_, rfl, ?_, rfl⟩
  · simp [generate_sequence_info]
  · intro c hc
    simp only [generate_sequence_info, List.mem_map, List.mem_range] at hc
    rcases hc with ⟨n, _, rfl⟩
    have hmem : ascii_letters_digits.get (rng n) ∈ ascii_letters_digits :=
      List.get_mem ascii_letters_digits (rng n).val (rng n).isLt
    revert hmem
    generalize ascii_letters_digits.get (rng n) = c
    intro hmem
    have hall : ∀ x ∈ ascii_letters_digits,
        ('A' ≤ x ∧ x ≤ 'Z') ∨ ('a' ≤ x ∧ x ≤ 'z') ∨ ('0' ≤ x ∧ x ≤ '9') := by decide
    exact hall c hmem
  · simp only [generate_sequence_info]
    exact flatten_pyWsSplit sequence

/-- Witness for C9 (the only hypothesis-like binders are data, but the
theorem is also exercised at a concrete random source and hash). -/
theorem generate_sequence_info_spec_witness :
    (generate_sequence_info (fun s => s) (fun _ => ⟨0, by decide⟩)
      " AC GT ".data (some "desc".data)).sequence = "ACGT".data ∧
    (generate_sequence_info (fun s => s) (fun _ => ⟨0, by decide⟩)
      " AC GT ".data (some "desc".data)).description = none ∧
    (generate_sequence_info (fun s => s) (fun _ => ⟨0, by decide⟩)
      " AC GT ".data (some "desc".data)).sequence_id.length = 32 := by
  have h := generate_sequence_info_spec (fun s => s) (fun _ => ⟨0, by decide⟩)
    " AC GT ".data (some "desc".data)
  refine ⟨?_, h.2.2.2.2, h.1⟩
  rw [h.2.2.2.1]
  decide

/-! ## `write_to_file` error handling -/

theorem writeLoop_error (records : List PyRecord) (format : List Char)
    (h : (∃ r ∈ records, goodRecord r = false) ∨
         (records ≠ [] ∧ format ≠ "fasta".data)) :
    writeLoop records format = .error () := by
  induction records with
  | nil =>
    rcases h with ⟨r, hr, _⟩ | ⟨hne, _⟩
    · simp at hr
    · exact absurd rfl hne
  | cons r rest ih =>
    match r with
    | .nonMap => rfl
    | .map fs =>
      rcases hid : lookupField fs "id".data with _ | header
      · simp [writeLoop, hid]
      rcases hseq : lookupField fs "sequence".data with _ | sequence
      · simp [writeLoop, hid, hseq]
      by_cases hfmt : format = "fasta".data
      · have hrest : ∃ x ∈ rest, goodRecord x = false := by
          rcases h with ⟨x, hx, hxbad⟩ | ⟨_, hbad⟩
          · rcases List.mem_cons.mp hx with rfl | hx2
            · exfalso
              simp [goodRecord, hid, hseq] at hxbad
            · exact ⟨x, hx2, hxbad⟩
          · exact absurd hfmt hbad
        subst hfmt
        have hrec := ih (Or.inl hrest)
        simp [writeLoop, hid, hseq, hrec]
      · simp [writeLoop, hid, hseq, hfmt]

/-- C7: `write_to_file` signals an error whenever the record list is
empty, the filename is empty, some record is not a mapping with the
required keys, or the format is not `"fasta"`. -/
theorem write_to_file_signals_errors (records : List PyRecord)
    (filename format : List Char)
    (h : records = [] ∨ filename = [] ∨
         (∃ r ∈ records, goodRecord r = false) ∨ format ≠ "fasta".data) :
    ∃ e, write_to_file (.seq records) filename format = .error e := by
  by_cases hrec : records = []
  · subst hrec
    exact ⟨.valueError, rfl⟩
  have htruthy : ¬ pyTruthy (.seq records) = false := by simp [pyTruthy, hrec]
  by_cases hfn : filename = []
  · refine ⟨.valueError, ?_⟩
    simp [write_to_file, htruthy, hfn]
  have hloop : writeLoop records format = .error () := by
    apply writeLoop_error
    rcases h with h | h | h | h
    · exact absurd h hrec
    · exact absurd h hfn
    · exact Or.inl h
    · exact Or.inr ⟨hrec, h⟩
  refine ⟨.typeError, ?_⟩
  simp [write_to_file, htruthy, hfn, hloop]

/-- Witness for C7: a list holding a non-mapping record is rejected. -/
theorem write_to_file_signals_errors_witness :
    ∃ e, write_to_file (.seq [PyRecord.nonMap]) "f".data "fasta".data = .error e :=
  write_to_file_signals_errors [PyRecord.nonMap] "f".data "fasta".data
    (Or.inr (Or.inr (Or.inl ⟨PyRecord.nonMap, by decide, by decide⟩)))

/-- C10: a truthy `data` that is not a `Sequence` is silently accepted:
`write_to_file` returns normally and never opens the file. -/
theorem write_to_file_ignores_non_sequence (filename format : List Char)
    (hfn : filename ≠ []) :
    write_to_file (.other true) filename format = .ok none := by
  simp [write_to_file, pyTruthy, hfn]

/-- Witness for C10 at a concrete filename and format. -/
theorem write_to_file_ignores_non_sequence_witness :
    "f".data ≠ [] ∧
    write_to_file (.other true) "f".data "fasta".data = .ok none :=
  ⟨by decide, write_to_file_ignores_non_sequence "f".data "fasta".data (by decide)⟩

/-! ## `filename_by_extension` -/

/-- C8: directory inputs yield the entries whose names end with the
literal extension (joined to the directory path); file inputs yield a
one-element list on a suffix match and a not-found error otherwise;
anything else is an invalid-input error; an empty result is always a
not-found error. -/
theorem filename_by_extension_spec (input_ extension : List Char) :
    (∀ listing : List (List Char),
      ((listing.filter (fun f => pyEndswith f extension)).map (fun f => pyJoin input_ f) ≠ [] →
        filename_by_extension input_ (.dir listing) extension =
          .ok ((listing.filter (fun f => pyEndswith f extension)).map
            (fun f => pyJoin input_ f))) ∧
      ((listing.filter (fun f => pyEndswith f extension)).map (fun f => pyJoin input_ f) = [] →
        filename_by_extension input_ (.dir listing) extension = .error .fileNotFoundError)) ∧
    (pyEndswith input_ extension = true →
      filename_by_extension input_ .file extension = .ok [input_]) ∧
    (pyEndswith input_ extension = false →
      filename_by_extension input_ .file extension = .error .fileNotFoundError) ∧
    filename_by_extension input_ .missing extension = .error .valueError := by
  refine ⟨fun listing => ⟨fun hne => ?_, fun he => ?_⟩, fun hyes => ?_, fun hno => ?_, rfl⟩
  · simp only [filename_by_extension, if_neg hne]
  · simp only [filename_by_extension, if_pos he]
  · simp [filename_by_extension, hyes]
  · simp [filename_by_extension, hno]

/-- Witness for C8: a directory whose entry `alfa` matches the extension
`fa` by bare suffix (no dot involved), and a single matching file. -/
theorem filename_by_extension_spec_witness :
    filename_by_extension "d".data (.dir ["alfa".data, "b.txt".data]) "fa".data =
      .ok [pyJoin "d".data "alfa".data] ∧
    filename_by_extension "a.fa".data .file "fa".data = .ok ["a.fa".data] := by
  constructor
  · have h := ((filename_by_extension_spec "d".data "fa".data).1
      ["alfa".data, "b.txt".data]).1 (by decide)
    rw [h]
    congr 1
  · exact (filename_by_extension_spec "a.fa".data "fa".data).2.1 (by decide)

/-! ## Lemmas about `fasta_to_dictionary` -/

theorem pySliceFrom_natCast (s : List Char) (n : Nat) :
    pySliceFrom s (n : Int) = s.drop n := by
  have hnn : ¬ ((n : Int) < 0) := by omega
  simp [pySliceFrom, hnn]

theorem pyFind_of_mem (b : Char) (s : List Char) (h : b ∈ s) :
    pyFind b s = ((s.takeWhile (fun c => !(c = b))).length : Int) := by
  induction s with
  | nil => simp at h
  | cons x rest ih =>
    by_cases hx : x = b
    · subst hx
      simp [pyFind, List.takeWhile_cons]
    · have hb : b ∈ rest := by
        rcases List.mem_cons.mp h with h1 | h1
        · exact absurd h1.symm hx
        · exact h1
      have hpos : ((rest.takeWhile (fun c => !(c = b))).length : Int) ≠ -1 := by omega
      simp only [pyFind, hx, if_false, ih hb, hpos]
      simp [List.takeWhile_cons, hx]

theorem fastaLoop_cons_pos (i : List Char) (rest : List (List Char))
    (st : Option (List Char × Int)) (hlen : i.length > 0) :
    fastaLoop (i :: rest) st =
      match fastaLoop rest (some ((pySplit '\n' i).headD [], pyFind '\n' i)) with
      | none => none
      | some recs => some (⟨(pySplit '\n' i).headD [],
          (pyWsSplit (pySliceFrom i (pyFind '\n' i))).flatten⟩ :: recs) := by
  simp only [fastaLoop, hlen, if_true]

theorem fastaLoop_eq : ∀ (chunks : List (List Char)),
    (∀ i ∈ chunks, i ≠ [] ∧ '\n' ∈ i) → ∀ st : Option (List Char × Int),
    fastaLoop chunks st =
      some (chunks.filterMap (fun i => if i = [] then none else some (claimChunkRec i)))
  | [], _, _ => rfl
  | i :: rest, h, st => by
    have hi := (h i (List.mem_cons_self i rest)).1
    have hnl := (h i (List.mem_cons_self i rest)).2
    have hrest : ∀ x ∈ rest, x ≠ [] ∧ '\n' ∈ x :=
      fun x hx => h x (List.mem_cons_of_mem i hx)
    have hlen : i.length > 0 := List.length_pos.mpr hi
    have hd : (pySplit '\n' i).headD [] = i.takeWhile (fun c => !(c = '\n')) := by
      rw [pySplit, headD_splitPred]
    have he : pyFind '\n' i = ((i.takeWhile (fun c => !(c = '\n'))).length : Int) :=
      pyFind_of_mem '\n' i hnl
    rw [fastaLoop_cons_pos i rest st hlen, fastaLoop_eq rest hrest]
    simp only [List.filterMap_cons, hi, if_false, ite_false, claimChunkRec,
      hd, he, pySliceFrom_natCast]

/-- C1 (amended): on a readable file whose text, once split on `>`, has
only non-empty chunks each containing a line break after the first
separator, `fasta_to_dictionary` returns exactly the records the claim
describes; the no-`>` branch needs no side condition. -/
theorem fasta_to_dictionary_spec (text : List Char)
    (h : ∀ i ∈ (pySplit '>' text).drop 1, i ≠ [] ∧ '\n' ∈ i) :
    fasta_to_dictionary text = .ok (claimFasta text) := by
  by_cases hgt : '>' ∈ text
  · rw [fasta_to_dictionary, claimFasta, if_pos hgt, if_pos hgt,
      fastaLoop_eq ((pySplit '>' text).drop 1) h none]
  · rw [fasta_to_dictionary, claimFasta, if_neg hgt, if_neg hgt, pySplit, flatten_splitPred]

/-- Witness for C1 at a well-formed two-line FASTA text, plus the
no-`>` branch at plain text. -/
theorem fasta_to_dictionary_spec_witness :
    (∀ i ∈ (pySplit '>' ">id\nACGT\n".data).drop 1, i ≠ [] ∧ '\n' ∈ i) ∧
    fasta_to_dictionary ">id\nACGT\n".data = .ok (claimFasta ">id\nACGT\n".data) ∧
    fasta_to_dictionary "ACGT\nTT\n".data = .ok (claimFasta "ACGT\nTT\n".data) :=
  ⟨by decide, fasta_to_dictionary_spec ">id\nACGT\n".data (by decide),
   fasta_to_dictionary_spec "ACGT\nTT\n".data (by decide)⟩

/-- Counterexample to C1 as stated: the text `">a\nC\n>"` has exactly one
non-empty chunk after the `>`-split, yet `fasta_to_dictionary` returns
two records: the trailing empty chunk also appends a record, reusing the
stale description of the previous chunk. -/
theorem fasta_to_dictionary_counterexample :
    (((pySplit '>' ">a\nC\n>".data).drop 1).filter (fun i => !(i = []))).length = 1 ∧
    fasta_to_dictionary ">a\nC\n>".data =
      .ok [⟨"a".data, "C".data⟩, ⟨"a".data, []⟩] := by
  constructor
  · decide
  · decide

/-! ## Round-trip: `write_to_file` then `fasta_to_dictionary` -/

theorem takeWhile_append_cons {p : Char → Bool} (l₁ : List Char) (c : Char)
    (l₂ : List Char) (h : ∀ x ∈ l₁, p x = true) (hc : p c = false) :
    (l₁ ++ c :: l₂).takeWhile p = l₁ := by
  induction l₁ with
  | nil => simp [List.takeWhile_cons, hc]
  | cons a t ih =>
    have ha := h a (List.mem_cons_self a t)
    have ht := fun x hx => h x (List.mem_cons_of_mem a hx)
    simp [List.takeWhile_cons, ha, ih ht]

theorem writeLoop_good (rs : List FRec) :
    writeLoop (rs.map recToPy) "fasta".data = .ok (serializeFasta rs) := by
  induction rs with
  | nil => rfl
  | cons r rest ih =>
    have h1 : lookupField [("id".data, r.id), ("sequence".data, r.sequence)]
        "id".data = some r.id := by
      simp [lookupField]
    have h2 : lookupField [("id".data, r.id), ("sequence".data, r.sequence)]
        "sequence".data = some r.sequence := by
      rw [lookupField, if_neg (by decide), lookupField, if_pos rfl]
    simp only [List.map_cons, recToPy, writeLoop, h1, h2, if_pos rfl, ih]
    simp [serializeFasta, chunkOf, List.append_assoc]

theorem chunkOf_no_gt (r : FRec) (h : goodFRec r) : '>' ∉ chunkOf r := by
  obtain ⟨_, hid, _, _, hseq⟩ := h
  intro hmem
  rcases List.mem_append.mp hmem with h1 | h2
  · exact hid h1
  rcases List.mem_cons.mp h2 with h3 | h4
  · exact absurd h3 (by decide)
  rcases List.mem_append.mp h4 with h5 | h6
  · exact hseq h5
  · exact absurd (List.mem_singleton.mp h6) (by decide)

theorem pySplit_serialize (rs : List FRec) (h : ∀ r ∈ rs, '>' ∉ chunkOf r) :
    pySplit '>' (serializeFasta rs) = [] :: rs.map chunkOf := by
  induction rs with
  | nil => rfl
  | cons r rest ih =>
    have hr := h r (List.mem_cons_self r rest)
    have hrest : ∀ x ∈ rest, '>' ∉ chunkOf x := fun x hx => h x (List.mem_cons_of_mem r hx)
    have hser : serializeFasta (r :: rest) = '>' :: (chunkOf r ++ serializeFasta rest) := by
      simp [serializeFasta]
    have hnone : ∀ x ∈ chunkOf r, (fun c => decide (c = '>')) x = false := by
      intro x hx
      exact decide_eq_false (fun he => hr (he ▸ hx))
    rw [hser, pySplit, splitPred_cons_of_sep _ '>' (by decide) _,
      splitPred_append_of_none _ _ _ hnone, ← pySplit, ih hrest]
    simp [List.modifyHead]

theorem fastaLoop_chunkOf : ∀ (rs : List FRec), (∀ r ∈ rs, goodFRec r) →
    ∀ st : Option (List Char × Int), fastaLoop (rs.map chunkOf) st = some rs
  | [], _, _ => rfl
  | r :: rest, h, st => by
    obtain ⟨hid_nl, _, hseq_ne, hseq_ws, _⟩ := h r (List.mem_cons_self r rest)
    have hrest : ∀ x ∈ rest, goodFRec x := fun x hx => h x (List.mem_cons_of_mem r hx)
    have hcne : chunkOf r ≠ [] := by simp [chunkOf]
    have hlen : (chunkOf r).length > 0 := List.length_pos.mpr hcne
    have htw : (chunkOf r).takeWhile (fun c => !(c = '\n')) = r.id := by
      rw [chunkOf]
      apply takeWhile_append_cons
      · intro x hx
        have hxne : x ≠ '\n' := fun he => hid_nl (he ▸ hx)
        simp [hxne]
      · simp
    have hd : (pySplit '\n' (chunkOf r)).headD [] = r.id := by
      rw [pySplit, headD_splitPred, htw]
    have hnl : '\n' ∈ chunkOf r := by simp [chunkOf]
    have he : pyFind '\n' (chunkOf r) = (r.id.length : Int) := by
      rw [pyFind_of_mem _ _ hnl, htw]
    have hslice : pySliceFrom (chunkOf r) (pyFind '\n' (chunkOf r)) =
        '\n' :: (r.sequence ++ ['\n']) := by
      rw [he, pySliceFrom_natCast, chunkOf, List.drop_left]
    have hsp : splitPred pyIsSpace ['\n'] = [[], []] := rfl
    have hws : pyWsSplit ('\n' :: (r.sequence ++ ['\n'])) = [r.sequence] := by
      rw [pyWsSplit, splitPred_cons_of_sep _ '\n' (by decide) _,
        splitPred_append_of_none _ _ _ hseq_ws, hsp]
      simp [List.modifyHead, List.filter, hseq_ne]
    rw [List.map_cons, fastaLoop_cons_pos _ _ _ hlen,
      fastaLoop_chunkOf rest hrest, hd, hslice, hws]
    simp

/-- C2 (amended): writing records whose ids are single-line and `>`-free
and whose sequences are non-empty, whitespace-free and (the amendment)
`>`-free, then re-parsing the written file, recovers exactly the input
records in order. -/
theorem write_fasta_roundtrip (rs : List FRec) (filename : List Char)
    (hne : rs ≠ []) (hfn : filename ≠ []) (hgood : ∀ r ∈ rs, goodFRec r) :
    write_to_file (.seq (rs.map recToPy)) filename "fasta".data =
      .ok (some (serializeFasta rs)) ∧
    fasta_to_dictionary (serializeFasta rs) = .ok rs := by
  constructor
  · have htruthy : ¬ pyTruthy (.seq (rs.map recToPy)) = false := by
      simp [pyTruthy, hne]
    simp [write_to_file, htruthy, hfn, writeLoop_good rs]
  · have hgt : '>' ∈ serializeFasta rs := by
      rcases rs with _ | ⟨r, rest⟩
      · exact absurd rfl hne
      · simp [serializeFasta]
    have hchunks : (pySplit '>' (serializeFasta rs)).drop 1 = rs.map chunkOf := by
      rw [pySplit_serialize rs (fun r hr => chunkOf_no_gt r (hgood r hr))]
      rfl
    rw [fasta_to_dictionary, if_pos hgt, hchunks, fastaLoop_chunkOf rs hgood none]

/-- Witness for C2 at two concrete well-formed records. -/
theorem write_fasta_roundtrip_witness :
    ([⟨"id1".data, "ACGT".data⟩, ⟨"id2".data, "TTGG".data⟩] : List FRec) ≠ [] ∧
    "f".data ≠ [] ∧
    (∀ r ∈ ([⟨"id1".data, "ACGT".data⟩, ⟨"id2".data, "TTGG".data⟩] : List FRec),
      goodFRec r) ∧
    (write_to_file
        (.seq (([⟨"id1".data, "ACGT".data⟩, ⟨"id2".data, "TTGG".data⟩] :
          List FRec).map recToPy)) "f".data "fasta".data =
      .ok (some (serializeFasta [⟨"id1".data, "ACGT".data⟩, ⟨"id2".data, "TTGG".data⟩])) ∧
    fasta_to_dictionary
        (serializeFasta [⟨"id1".data, "ACGT".data⟩, ⟨"id2".data, "TTGG".data⟩]) =
      .ok [⟨"id1".data, "ACGT".data⟩, ⟨"id2".data, "TTGG".data⟩]) :=
  ⟨by decide, by decide, by decide,
   write_fasta_roundtrip [⟨"id1".data, "ACGT".data⟩, ⟨"id2".data, "TTGG".data⟩]
     "f".data (by decide) (by decide) (by decide)⟩

/-- Counterexample to C2 as stated: the record `{"a", "AC>GT"}` meets the
claim's hypotheses (single-line `>`-free id, non-empty whitespace-free
sequence), but writing it and re-parsing yields two different records:
the `>` inside the sequence starts a new FASTA block. -/
theorem write_fasta_roundtrip_counterexample :
    ('\n' ∉ "a".data ∧ '>' ∉ "a".data ∧ "AC>GT".data ≠ [] ∧
      (∀ c ∈ "AC>GT".data, pyIsSpace c = false)) ∧
    write_to_file (.seq ([(⟨"a".data, "AC>GT".data⟩ : FRec)].map recToPy))
      "f".data "fasta".data = .ok (some ">a\nAC>GT\n".data) ∧
    fasta_to_dictionary ">a\nAC>GT\n".data =
      .ok [⟨"a".data, "AC".data⟩, ⟨"GT".data, []⟩] :=
  ⟨by decide, by decide, by decide⟩
